import Mathlib

set_option linter.unusedVariables false

/-!
Verification of the ipp-usb daemon's core components against their
natural-language specification.  The Go sources are shallowly embedded:
pure functions become Lean functions, Go maps become association lists
or explicit update functions, panicking code paths return `Option`
(`none` models a runtime panic), and external library calls
(`sort.Search`, `encoding/xml.RawToken`, goipp values) are modelled by
their documented contracts.

Embedded sources:
- `usbcommon.go`: `UsbAddr`, `UsbAddrList` with `Add`, `Find`, `Diff`;
- the HTTP proxy: `ServeHTTP`, `httpRemoveHopByHopHeaders`,
  `httpCopyHeaders`, the session-id counter;
- the IPP attribute decoder: `newIppDecoder`, `getAttr`, `strSingle`
  and the DNS-SD name fallback chain;
- `escl.go`: `esclCapsDecoder.decode` and the `EsclService` validity
  check on the decoded `ScannerCapabilities`.
-/

/-! ## USB address model (usbcommon.go) -/

/-- `usbcommon.go` lines 17-21: a USB device address.  Go `int` is
modelled as `Int` (no arithmetic is done on these fields). -/
structure UsbAddr where
  bus : Int
  address : Int
deriving DecidableEq, Repr

/-- `usbcommon.go` lines 34-38: comparison of two addresses, for sorting. -/
def UsbAddr.Less (a b : UsbAddr) : Bool :=
  a.bus < b.bus || (a.bus == b.bus && a.address < b.address)

/-- `usbcommon.go` line 46: a list of USB addresses. -/
abbrev UsbAddrList := List UsbAddr

/-- Model of Go `sort.Search n f`: a linear scan for the least index
`i < n` with `f i = true` (returning `n` when there is none).  This is
the documented result of `sort.Search`, whose binary search coincides
with the least-index scan whenever `f` is monotone (false then true) --
the documented precondition of `sort.Search`.  For the callers below
the predicate is monotone exactly when the address list is sorted. -/
def sortSearchAux (f : Nat → Bool) : Nat → Nat → Nat
  | 0, i => i
  | n+1, i => if f i then i else sortSearchAux f n (i+1)

/-- See `sortSearchAux`. -/
def sortSearch (n : Nat) (f : Nat → Bool) : Nat := sortSearchAux f n 0

/-- `usbcommon.go` lines 49-76, `(*UsbAddrList) Add`.  The final branch
is the source's `*list = append(*list, (*list)[i]); (*list)[i] = addr`:
the old element at `i` is appended at the end and slot `i` is
overwritten (there is no shift of the elements in between). -/
def UsbAddrList.Add (list : UsbAddrList) (addr : UsbAddr) : UsbAddrList :=
  let i := sortSearch list.length (fun n => !((list.getD n addr).Less addr))
  if i < list.length ∧ list.getD i addr = addr then
    list
  else if i = list.length then
    list ++ [addr]
  else
    (list.set i addr) ++ [list.getD i addr]

/-- `usbcommon.go` lines 80-90, `UsbAddrList.Find`: index of `addr` in
the list, `-1` when absent. -/
def UsbAddrList.Find (list : UsbAddrList) (addr : UsbAddr) : Int :=
  let i := sortSearch list.length (fun n => !((list.getD n addr).Less addr))
  if i < list.length ∧ list.getD i addr = addr then (i : Int) else -1

/-- `usbcommon.go` lines 95-112, `UsbAddrList.Diff`: the two
`for ... range` loops become folds that `Add` every element of one list
not found in the other. -/
def UsbAddrList.Diff (list1 list2 : UsbAddrList) : UsbAddrList × UsbAddrList :=
  let added := list2.foldl
    (fun acc a => if list1.Find a < 0 then UsbAddrList.Add acc a else acc) []
  let removed := list1.foldl
    (fun acc a => if list2.Find a < 0 then UsbAddrList.Add acc a else acc) []
  (added, removed)

/-- The sortedness invariant stated in the doc comment of
`UsbAddrList` (usbcommon.go lines 40-45): strictly ascending, hence
also duplicate-free. -/
def UsbSorted (l : UsbAddrList) : Prop :=
  List.Pairwise (fun a b => UsbAddr.Less a b = true) l

instance (l : UsbAddrList) : Decidable (UsbSorted l) := by
  unfold UsbSorted; infer_instance

/-! ### Order lemmas for `UsbAddr.Less` -/

theorem UsbAddr.less_irrefl (a : UsbAddr) : a.Less a = false := by
  simp [UsbAddr.Less]

/-! ### `sort.Search` versus the prefix-length characterisation -/

/-- Length of the strictly-smaller prefix: the index the search loop
computes. -/
def lbAux : List UsbAddr → UsbAddr → Nat
  | [], _ => 0
  | x :: xs, a => if x.Less a then lbAux xs a + 1 else 0

theorem sortSearchAux_cons (x : UsbAddr) (xs : List UsbAddr) (a : UsbAddr) :
    ∀ (n i : Nat),
      sortSearchAux (fun k => !(((x :: xs).getD k a).Less a)) n (i+1)
        = sortSearchAux (fun k => !((xs.getD k a).Less a)) n i + 1 := by
  intro n
  induction n with
  | zero => intro i; simp [sortSearchAux]
  | succ n ih =>
    intro i
    simp only [sortSearchAux, List.getD_cons_succ]
    by_cases h : (xs[i]?.getD a).Less a = true
    · rw [if_neg (by simp [h]), if_neg (by simp [h])]
      exact ih (i+1)
    · rw [if_pos (by simp [h]), if_pos (by simp [h])]

theorem sortSearch_eq_lbAux (l : List UsbAddr) (a : UsbAddr) :
    sortSearch l.length (fun n => !((l.getD n a).Less a)) = lbAux l a := by
  induction l with
  | nil => rfl
  | cons x xs ih =>
    show sortSearchAux _ (xs.length + 1) 0 = _
    simp only [sortSearchAux]
    by_cases h : x.Less a = true
    · rw [if_neg (by simp [List.getD_cons_zero, h])]
      rw [sortSearchAux_cons x xs a xs.length 0]
      have ih2 : sortSearchAux (fun k => !((xs.getD k a).Less a)) xs.length 0
          = lbAux xs a := ih
      rw [ih2]
      simp [lbAux, h]
    · rw [if_pos (by simp [List.getD_cons_zero, h])]
      simp [lbAux, h]

theorem lbAux_le (l : List UsbAddr) (a : UsbAddr) : lbAux l a ≤ l.length := by
  induction l with
  | nil => simp [lbAux]
  | cons x xs ih =>
    simp only [lbAux, List.length_cons]
    by_cases h : x.Less a
    · simp [h]; omega
    · simp [h]

theorem lbAux_all_less (l : List UsbAddr) (a : UsbAddr)
    (h : ∀ x ∈ l, x.Less a = true) : lbAux l a = l.length := by
  induction l with
  | nil => rfl
  | cons x xs ih =>
    have hx : x.Less a = true := h x (by simp)
    simp only [lbAux, hx, if_pos, List.length_cons]
    have := ih (fun y hy => h y (by simp [hy]))
    omega

/-- When every element of the list is strictly below `addr`, `Add`
appends (the duplicate check fails and the insertion index is the
length). -/
theorem UsbAddrList.add_all_less (l : UsbAddrList) (a : UsbAddr)
    (h : ∀ x ∈ l, x.Less a = true) : l.Add a = l ++ [a] := by
  unfold UsbAddrList.Add
  rw [sortSearch_eq_lbAux, lbAux_all_less l a h]
  simp

/-! ### `Find` characterisation on sorted lists -/

theorem UsbAddrList.find_nonneg_cond (l : UsbAddrList) (a : UsbAddr) :
    0 ≤ l.Find a ↔ (lbAux l a < l.length ∧ l.getD (lbAux l a) a = a) := by
  unfold UsbAddrList.Find
  rw [sortSearch_eq_lbAux]
  by_cases hc : lbAux l a < l.length ∧ l.getD (lbAux l a) a = a
  · rw [if_pos hc]
    constructor
    · intro _; exact hc
    · intro _; omega
  · rw [if_neg hc]
    constructor
    · intro h0; exact absurd h0 (by decide)
    · intro hcc; exact absurd hcc hc

theorem lb_cond_iff_mem (a : UsbAddr) :
    ∀ (l : UsbAddrList), UsbSorted l →
      ((lbAux l a < l.length ∧ l.getD (lbAux l a) a = a) ↔ a ∈ l) := by
  intro l
  induction l with
  | nil => intro _; simp [lbAux]
  | cons x xs ih =>
    intro hs
    rcases List.pairwise_cons.mp hs with ⟨hx, hxs⟩
    by_cases h : x.Less a = true
    · have hxa : x ≠ a := by
        intro e
        rw [e, UsbAddr.less_irrefl] at h
        cases h
      have hlb : lbAux (x :: xs) a = lbAux xs a + 1 := by simp [lbAux, h]
      rw [hlb]
      simp only [List.length_cons, List.getD_cons_succ, Nat.add_lt_add_iff_right]
      rw [ih hxs]
      constructor
      · exact fun hm => List.mem_cons_of_mem x hm
      · intro hm
        rcases List.mem_cons.mp hm with e | hm2
        · exact absurd e.symm hxa
        · exact hm2
    · have hlb : lbAux (x :: xs) a = 0 := by simp [lbAux, h]
      rw [hlb]
      simp only [List.length_cons, List.getD_cons_zero]
      constructor
      · intro hc
        rw [← hc.2]
        exact List.mem_cons_self x xs
      · intro hm
        refine ⟨Nat.succ_pos _, ?_⟩
        rcases List.mem_cons.mp hm with e | hm2
        · exact e.symm
        · exact absurd (hx a hm2) h

theorem UsbAddrList.find_nonneg_iff (l : UsbAddrList) (a : UsbAddr)
    (hs : UsbSorted l) : 0 ≤ l.Find a ↔ a ∈ l :=
  (UsbAddrList.find_nonneg_cond l a).trans (lb_cond_iff_mem a l hs)

theorem UsbAddrList.find_neg_iff (l : UsbAddrList) (a : UsbAddr)
    (hs : UsbSorted l) : l.Find a < 0 ↔ a ∉ l := by
  rw [← UsbAddrList.find_nonneg_iff l a hs]
  omega

/-! ### `Diff` builds its results by appending in ascending order -/

theorem diff_fold (p : UsbAddr → Prop) [DecidablePred p] :
    ∀ (L acc : UsbAddrList),
      List.Pairwise (fun a b => UsbAddr.Less a b = true) (acc ++ L) →
      L.foldl (fun b a => if p a then UsbAddrList.Add b a else b) acc
        = acc ++ L.filter (fun a => decide (p a)) := by
  intro L
  induction L with
  | nil => intro acc _; simp
  | cons a L ih =>
    intro acc h
    have hacc : ∀ x ∈ acc, x.Less a = true := by
      intro x hx
      exact (List.pairwise_append.mp h).2.2 x hx a (by simp)
    simp only [List.foldl_cons]
    by_cases hp : p a
    · rw [if_pos hp, UsbAddrList.add_all_less acc a hacc]
      have h2 : List.Pairwise (fun a b => UsbAddr.Less a b = true) ((acc ++ [a]) ++ L) := by
        rw [List.append_assoc]
        simpa using h
      rw [ih (acc ++ [a]) h2]
      simp [hp, List.filter_cons]
    · rw [if_neg hp]
      have h2 : List.Pairwise (fun a b => UsbAddr.Less a b = true) (acc ++ L) := by
        refine List.Pairwise.sublist ?_ h
        exact List.Sublist.append_left (List.sublist_cons_self a L) acc
      rw [ih acc h2]
      simp [hp, List.filter_cons]

theorem UsbAddrList.diff_eq_filters (L1 L2 : UsbAddrList)
    (h1 : UsbSorted L1) (h2 : UsbSorted L2) :
    L1.Diff L2 = (L2.filter (fun a => decide (L1.Find a < 0)),
                  L1.filter (fun a => decide (L2.Find a < 0))) := by
  unfold UsbAddrList.Diff
  rw [diff_fold (fun a => L1.Find a < 0) L2 [] (by simpa [UsbSorted] using h2)]
  rw [diff_fold (fun a => L2.Find a < 0) L1 [] (by simpa [UsbSorted] using h1)]
  simp

/-- C2: on sorted duplicate-free inputs, `Diff` returns `added` holding
exactly the elements of `L2` missing from `L1`, `removed` holding
exactly the elements of `L1` missing from `L2`, both sorted in
ascending `(bus, device)` order, disjoint, and satisfying
`(L1 ∪ added) \ removed == L2` as sets. -/
theorem UsbAddrList.Diff_correct (L1 L2 : UsbAddrList)
    (h1 : UsbSorted L1) (h2 : UsbSorted L2) :
    (∀ a, a ∈ (L1.Diff L2).1 ↔ (a ∈ L2 ∧ a ∉ L1)) ∧
    (∀ a, a ∈ (L1.Diff L2).2 ↔ (a ∈ L1 ∧ a ∉ L2)) ∧
    UsbSorted (L1.Diff L2).1 ∧ UsbSorted (L1.Diff L2).2 ∧
    (∀ a, ¬(a ∈ (L1.Diff L2).1 ∧ a ∈ (L1.Diff L2).2)) ∧
    (∀ a, ((a ∈ L1 ∨ a ∈ (L1.Diff L2).1) ∧ a ∉ (L1.Diff L2).2) ↔ a ∈ L2) := by
  have hD := UsbAddrList.diff_eq_filters L1 L2 h1 h2
  have hfst : (L1.Diff L2).1 = L2.filter (fun a => decide (L1.Find a < 0)) := by rw [hD]
  have hsnd : (L1.Diff L2).2 = L1.filter (fun a => decide (L2.Find a < 0)) := by rw [hD]
  have hmem1 : ∀ a, a ∈ (L1.Diff L2).1 ↔ (a ∈ L2 ∧ a ∉ L1) := by
    intro a
    rw [hfst, List.mem_filter]
    simp only [decide_eq_true_eq]
    rw [UsbAddrList.find_neg_iff L1 a h1]
  have hmem2 : ∀ a, a ∈ (L1.Diff L2).2 ↔ (a ∈ L1 ∧ a ∉ L2) := by
    intro a
    rw [hsnd, List.mem_filter]
    simp only [decide_eq_true_eq]
    rw [UsbAddrList.find_neg_iff L2 a h2]
  refine ⟨hmem1, hmem2, ?_, ?_, ?_, ?_⟩
  · rw [hfst]; exact List.Pairwise.filter _ h2
  · rw [hsnd]; exact List.Pairwise.filter _ h1
  · intro a ⟨ha1, ha2⟩
    exact ((hmem1 a).mp ha1).2 ((hmem2 a).mp ha2).1
  · intro a
    rw [hmem1 a, hmem2 a]
    by_cases hL1 : a ∈ L1 <;> by_cases hL2 : a ∈ L2 <;> simp [hL1, hL2]

/-- Witness for C2 at concrete sorted inputs. -/
theorem UsbAddrList.Diff_correct_witness :
    UsbSorted [⟨1,1⟩, ⟨2,2⟩] ∧ UsbSorted [⟨1,1⟩, ⟨3,3⟩] ∧
    (∀ a, a ∈ (UsbAddrList.Diff [⟨1,1⟩, ⟨2,2⟩] [⟨1,1⟩, ⟨3,3⟩]).1 ↔
      (a ∈ [UsbAddr.mk 1 1, UsbAddr.mk 3 3] ∧ a ∉ [UsbAddr.mk 1 1, UsbAddr.mk 2 2])) :=
  ⟨by decide, by decide,
    (UsbAddrList.Diff_correct [⟨1,1⟩, ⟨2,2⟩] [⟨1,1⟩, ⟨3,3⟩] (by decide) (by decide)).1⟩

/-- C9 (code bug): `Add` on the sorted list `[(1,1),(1,3),(1,5)]` with
new address `(1,2)` takes the "insert in the middle" branch, which
appends the displaced element to the end instead of shifting, producing
the unsorted list `[(1,1),(1,2),(1,5),(1,3)]` -- contradicting the
sortedness invariant stated in the `UsbAddrList` doc comment
(usbcommon.go lines 40-45). -/
theorem UsbAddrList.Add_middle_not_sorted :
    UsbSorted [⟨1,1⟩, ⟨1,3⟩, ⟨1,5⟩] ∧
    UsbAddrList.Add [⟨1,1⟩, ⟨1,3⟩, ⟨1,5⟩] ⟨1,2⟩ = [⟨1,1⟩, ⟨1,2⟩, ⟨1,5⟩, ⟨1,3⟩] ∧
    ¬ UsbSorted [⟨1,1⟩, ⟨1,2⟩, ⟨1,5⟩, ⟨1,3⟩] :=
  ⟨by decide, by decide, by decide⟩

/-! ## HTTP proxy model (the HTTP proxy source file) -/

/-- Model of a Go `textproto` valid header-field byte: digits, letters
and the RFC 7230 token specials (codes 33, 35-39, 42, 43, 45, 46, 94,
95, 96, 124, 126).  `CanonicalMIMEHeaderKey` leaves a key untouched
when any byte is not such a character. -/
def validHeaderFieldChar (c : Char) : Bool :=
  let n := c.toNat
  (48 ≤ n && n ≤ 57) ||
  (65 ≤ n && n ≤ 90) ||
  (97 ≤ n && n ≤ 122) ||
  [33, 35, 36, 37, 38, 39, 42, 43, 45, 46, 94, 95, 96, 124, 126].contains n

/-- Case-folding pass of `textproto.CanonicalMIMEHeaderKey`: uppercase
a letter at the start or after a hyphen, lowercase the rest. -/
def canonAux : Bool → List Char → List Char
  | _, [] => []
  | up, c :: cs =>
    (if up then c.toUpper else c.toLower) :: canonAux (c == '-') cs

/-- Model of Go `textproto.CanonicalMIMEHeaderKey`, used by
`Header.Get` / `Header.Del` / `Header.Set`. -/
def canonicalMIMEHeaderKey (s : String) : String :=
  if s.toList.all validHeaderFieldChar then (canonAux true s.toList).asString else s

/-- Go `http.Header`: a map from exact header keys to value lists,
modelled as an association list with at most one entry per key. -/
abbrev Header := List (String × List String)

def headerLookup (h : Header) (key : String) : Option (List String) :=
  (h.find? (fun p => p.fst == key)).map (fun p => p.snd)

/-- Go `Header.Get`: first value stored under the canonicalised key,
`""` when the key is absent or its value list is empty. -/
def headerGet (h : Header) (key : String) : String :=
  match headerLookup h (canonicalMIMEHeaderKey key) with
  | some (v :: _) => v
  | _ => ""

/-- Go `Header.Del`: remove the canonicalised key from the map. -/
def headerDel (h : Header) (key : String) : Header :=
  h.filter (fun p => p.fst != canonicalMIMEHeaderKey key)

/-- Go map assignment `dst[k] = v` on a header map (direct indexing,
no canonicalisation), as `httpCopyHeaders` performs it. -/
def headerSetRaw : Header → String → List String → Header
  | [], k, v => [(k, v)]
  | p :: rest, k, v =>
    if p.fst == k then (k, v) :: rest else p :: headerSetRaw rest k v

/-- Model of Go `strings.Split(s, ",")` (the separator used by
`httpRemoveHopByHopHeaders`), written on character lists so that it
evaluates inside the kernel. -/
def splitCommaAux : List Char → List Char → List (List Char)
  | [], cur => [cur.reverse]
  | c :: cs, cur =>
    if c == ',' then cur.reverse :: splitCommaAux cs [] else splitCommaAux cs (c :: cur)

/-- See `splitCommaAux`. -/
def goSplitComma (s : String) : List String :=
  (splitCommaAux s.toList []).map List.asString

/-- ASCII white space as recognised by Go `unicode.IsSpace` (the
non-ASCII space code points are irrelevant to header names). -/
def isGoSpace (c : Char) : Bool :=
  c == ' ' || c == '\t' || c == '\n' || c == '\r' || c == '\x0b' || c == '\x0c'

/-- Model of Go `strings.TrimSpace`. -/
def goTrimSpace (s : String) : String :=
  ((s.toList.dropWhile isGoSpace).reverse.dropWhile isGoSpace).reverse.asString

/-- HTTP proxy source, lines 157-159: the fixed list of headers deleted
by `httpRemoveHopByHopHeaders`.  Note `Upgrade` is not in it. -/
def httpHopHeaders : List String :=
  ["Connection", "Keep-Alive", "Proxy-Authenticate", "Proxy-Connection",
   "Proxy-Authorization", "Te", "Trailer", "Transfer-Encoding"]

/-- HTTP proxy source, lines 148-162, `httpRemoveHopByHopHeaders`:
first delete every non-empty comma-separated name found in the map's
own first `Connection` value, then delete the fixed list.
(`strings.TrimSpace` is modelled by `String.trim`; the names involved
are ASCII.) -/
def httpRemoveHopByHopHeaders (hdr : Header) : Header :=
  let hdr1 :=
    let c := headerGet hdr "Connection"
    if c != "" then
      (goSplitComma c).foldl
        (fun h f => if goTrimSpace f != "" then headerDel h (goTrimSpace f) else h) hdr
    else hdr
  httpHopHeaders.foldl headerDel hdr1

/-- The names the first loop of `httpRemoveHopByHopHeaders` deletes:
comma-separated, space-trimmed, non-empty names of the map's first
`Connection` value. -/
def connectionNames (hdr : Header) : List String :=
  let c := headerGet hdr "Connection"
  if c != "" then ((goSplitComma c).map goTrimSpace).filter (fun f => f != "") else []

/-- HTTP proxy source, lines 165-168, `httpCopyHeaders`:
`dst[k] = v` for every entry of `src`. -/
def httpCopyHeaders (dst src : Header) : Header :=
  src.foldl (fun d p => headerSetRaw d p.fst p.snd) dst

/-- The parts of a Go `http.Request` the proxy reads or writes:
`r.Method`, `r.URL.Scheme` (`r.URL.IsAbs()` is `Scheme != ""`),
`r.URL.Host`, `r.Host` and `r.Header`. -/
structure Request where
  method : String
  urlScheme : String
  urlHost : String
  host : String
  header : Header
deriving DecidableEq, Repr

/-- The parts of a Go `http.Response` the proxy reads. -/
structure Response where
  statusCode : Nat
  header : Header
deriving DecidableEq, Repr

/-- Outcome of `HttpProxy.ServeHTTP`: `reject` is one of the up-front
sanity-check errors (an `httpError` issued before the transport is
touched), `transportFail` means `RoundTrip` returned an error (also a
503 `httpError`), and `ok` carries the forwarded request plus the
status and headers copied back to the client. -/
inductive ProxyResult where
  | reject (status : Nat)
  | transportFail (status : Nat)
  | ok (forwarded : Request) (status : Nat) (header : Header)
deriving DecidableEq, Repr

/-- HTTP proxy source, lines 88-104: header cleanup and request rewrite
before `RoundTrip`.  `localAddr` models the listener address the
server stores under `http.LocalAddrContextKey` (always present for
requests accepted by `http.Server`). -/
def proxyRewrite (localAddr : String) (r : Request) : Request :=
  let hdr := httpRemoveHopByHopHeaders r.header
  let host := if r.host == "" then localAddr else r.host
  { r with header := hdr, host := host, urlScheme := "http", urlHost := host }

/-- HTTP proxy source, lines 106-120: forward the rewritten request
through the transport (`http.RoundTripper`, modelled as a function
where `none` is a round-trip error) and copy the response back. -/
def proxyForward (localAddr : String) (transport : Request → Option Response)
    (r : Request) : ProxyResult :=
  match transport (proxyRewrite localAddr r) with
  | none => ProxyResult.transportFail 503
  | some resp =>
      ProxyResult.ok (proxyRewrite localAddr r) resp.statusCode
        (httpCopyHeaders [] (httpRemoveHopByHopHeaders resp.header))

/-- HTTP proxy source, lines 63-121, `HttpProxy.ServeHTTP`. -/
def serveHTTP (localAddr : String) (transport : Request → Option Response)
    (r : Request) : ProxyResult :=
  if r.method == "CONNECT" then ProxyResult.reject 405
  else if headerGet r.header "Upgrade" != "" then ProxyResult.reject 503
  else if r.urlScheme != "" then ProxyResult.reject 503
  else proxyForward localAddr transport r

/-! ### Membership lemmas for header removal -/

theorem mem_headerDel {p : String × List String} {h : Header} {k : String} :
    p ∈ headerDel h k ↔ p ∈ h ∧ p.fst ≠ canonicalMIMEHeaderKey k := by
  simp [headerDel, List.mem_filter]

theorem mem_foldl_headerDel (ks : List String) :
    ∀ (h : Header) (p : String × List String),
      p ∈ ks.foldl headerDel h ↔
        p ∈ h ∧ ∀ k ∈ ks, p.fst ≠ canonicalMIMEHeaderKey k := by
  induction ks with
  | nil => intro h p; simp
  | cons k ks ih =>
    intro h p
    simp only [List.foldl_cons]
    rw [ih (headerDel h k) p, mem_headerDel]
    constructor
    · rintro ⟨⟨hp, hk⟩, hks⟩
      refine ⟨hp, ?_⟩
      intro k2 hk2
      rcases List.mem_cons.mp hk2 with e | hm
      · rw [e]; exact hk
      · exact hks k2 hm
    · rintro ⟨hp, hall⟩
      exact ⟨⟨hp, hall k (by simp)⟩, fun k2 hm => hall k2 (by simp [hm])⟩

theorem mem_foldl_connDel (es : List String) :
    ∀ (h : Header) (p : String × List String),
      p ∈ es.foldl (fun h f => if goTrimSpace f != "" then headerDel h (goTrimSpace f) else h) h ↔
        p ∈ h ∧ ∀ f ∈ es, goTrimSpace f ≠ "" →
          p.fst ≠ canonicalMIMEHeaderKey (goTrimSpace f) := by
  induction es with
  | nil => intro h p; simp
  | cons f es ih =>
    intro h p
    simp only [List.foldl_cons]
    by_cases ht : goTrimSpace f = ""
    · rw [if_neg (by simp [ht]), ih h p]
      constructor
      · rintro ⟨hp, hall⟩
        refine ⟨hp, ?_⟩
        intro f2 hf2 hne
        rcases List.mem_cons.mp hf2 with e | hm
        · rw [e] at hne; exact absurd ht hne
        · exact hall f2 hm hne
      · rintro ⟨hp, hall⟩
        exact ⟨hp, fun f2 hm hne => hall f2 (by simp [hm]) hne⟩
    · rw [if_pos (by simp [ht]), ih (headerDel h (goTrimSpace f)) p]
      rw [mem_headerDel]
      constructor
      · rintro ⟨⟨hp, hk⟩, hall⟩
        refine ⟨hp, ?_⟩
        intro f2 hf2 hne
        rcases List.mem_cons.mp hf2 with e | hm
        · rw [e]; exact hk
        · exact hall f2 hm hne
      · rintro ⟨hp, hall⟩
        exact ⟨⟨hp, hall f (by simp) ht⟩, fun f2 hm hne => hall f2 (by simp [hm]) hne⟩

/-- Every entry surviving `httpRemoveHopByHopHeaders` was an entry of
the input, and its key differs from the canonical form of every name
in the fixed hop-by-hop list and of every name carried by the map's
own `Connection` header. -/
theorem mem_httpRemoveHopByHopHeaders
    (hdr : Header) (p : String × List String)
    (hmem : p ∈ httpRemoveHopByHopHeaders hdr) :
    p ∈ hdr ∧ (∀ k ∈ httpHopHeaders, p.fst ≠ canonicalMIMEHeaderKey k) ∧
      (∀ n ∈ connectionNames hdr, p.fst ≠ canonicalMIMEHeaderKey n) := by
  unfold httpRemoveHopByHopHeaders at hmem
  rw [mem_foldl_headerDel] at hmem
  rcases hmem with ⟨h1, hfixed⟩
  by_cases hc : headerGet hdr "Connection" = ""
  · rw [if_neg (by simp [hc])] at h1
    refine ⟨h1, hfixed, ?_⟩
    intro n hn
    unfold connectionNames at hn
    rw [if_neg (by simp [hc])] at hn
    cases hn
  · rw [if_pos (by simp [hc])] at h1
    rw [mem_foldl_connDel] at h1
    rcases h1 with ⟨hp, hconn⟩
    refine ⟨hp, hfixed, ?_⟩
    intro n hn
    unfold connectionNames at hn
    rw [if_pos (by simp [hc])] at hn
    rcases List.mem_filter.mp hn with ⟨hmap, hne⟩
    rcases List.mem_map.mp hmap with ⟨f, hf, hfe⟩
    have hne2 : goTrimSpace f ≠ "" := by
      rw [hfe]; intro e; rw [e] at hne; simp at hne
    have := hconn f hf hne2
    rw [hfe] at this
    exact this

theorem mem_headerSetRaw (k : String) (v : List String) :
    ∀ (h : Header) (p : String × List String),
      p ∈ headerSetRaw h k v → p ∈ h ∨ p = (k, v) := by
  intro h
  induction h with
  | nil => intro p hp; simp [headerSetRaw] at hp; simp [hp]
  | cons q rest ih =>
    intro p hp
    unfold headerSetRaw at hp
    by_cases he : q.fst == k
    · rw [if_pos he] at hp
      rcases List.mem_cons.mp hp with e | hm
      · exact Or.inr e
      · exact Or.inl (List.mem_cons_of_mem q hm)
    · rw [if_neg he] at hp
      rcases List.mem_cons.mp hp with e | hm
      · exact Or.inl (by simp [e])
      · rcases ih p hm with h2 | h2
        · exact Or.inl (List.mem_cons_of_mem q h2)
        · exact Or.inr h2

theorem mem_httpCopyHeaders (src : List (String × List String)) :
    ∀ (dst : Header) (p : String × List String),
      p ∈ httpCopyHeaders dst src → p ∈ dst ∨ p ∈ src := by
  unfold httpCopyHeaders
  induction src with
  | nil => intro dst p hp; exact Or.inl hp
  | cons q rest ih =>
    intro dst p hp
    simp only [List.foldl_cons] at hp
    rcases ih (headerSetRaw dst q.fst q.snd) p hp with h2 | h2
    · rcases mem_headerSetRaw q.fst q.snd dst p h2 with h3 | h3
      · exact Or.inl h3
      · exact Or.inr (by simp [h3])
    · exact Or.inr (List.mem_cons_of_mem q h2)

/-- Inversion of a successful `ServeHTTP` run: the forwarded request is
the rewritten one and the copied headers come from the response after
hop-by-hop removal. -/
theorem serveHTTP_ok_inv (la : String) (t : Request → Option Response)
    (r rq : Request) (st : Nat) (hh : Header)
    (h : serveHTTP la t r = ProxyResult.ok rq st hh) :
    rq = proxyRewrite la r ∧
      ∃ resp, t (proxyRewrite la r) = some resp ∧ st = resp.statusCode ∧
        hh = httpCopyHeaders [] (httpRemoveHopByHopHeaders resp.header) := by
  unfold serveHTTP at h
  by_cases h1 : (r.method == "CONNECT") = true
  · rw [if_pos h1] at h; cases h
  · rw [if_neg h1] at h
    by_cases h2 : (headerGet r.header "Upgrade" != "") = true
    · rw [if_pos h2] at h; cases h
    · rw [if_neg h2] at h
      by_cases h3 : (r.urlScheme != "") = true
      · rw [if_pos h3] at h; cases h
      · rw [if_neg h3] at h
        unfold proxyForward at h
        cases ht : t (proxyRewrite la r) with
        | none => rw [ht] at h; simp at h
        | some resp =>
          rw [ht] at h
          simp only [ProxyResult.ok.injEq] at h
          exact ⟨h.1.symm, resp, rfl, h.2.1.symm, h.2.2.symm⟩

/-- C1 (amended): every header surviving into the forwarded request or
into the headers copied back to the client differs (after
canonicalisation) from every name in the code's fixed removal list
(`Connection`, `Keep-Alive`, `Proxy-Authenticate`, `Proxy-Connection`,
`Proxy-Authorization`, `TE`, `Trailer`, `Transfer-Encoding`) and from
every name carried by the *same message's own* `Connection` header.
`Upgrade` is not removed (requests with a non-empty `Upgrade` value are
rejected before forwarding, but responses are not filtered for it).
The hypotheses state that the incoming header maps keep their keys in
canonical form, which is how Go's request/response parsers produce
them. -/
theorem httpProxy_hop_by_hop_amended (la : String) (t : Request → Option Response)
    (r rq : Request) (st : Nat) (hh : Header)
    (hserve : serveHTTP la t r = ProxyResult.ok rq st hh)
    (hcReq : ∀ p ∈ r.header, canonicalMIMEHeaderKey p.fst = p.fst)
    (hcResp : ∀ r2 resp, t r2 = some resp →
        ∀ p ∈ resp.header, canonicalMIMEHeaderKey p.fst = p.fst) :
    (∀ n, (n ∈ httpHopHeaders ∨ n ∈ connectionNames r.header) →
       ∀ p ∈ rq.header, canonicalMIMEHeaderKey p.fst ≠ canonicalMIMEHeaderKey n) ∧
    (∃ resp, t rq = some resp ∧
       ∀ n, (n ∈ httpHopHeaders ∨ n ∈ connectionNames resp.header) →
         ∀ p ∈ hh, canonicalMIMEHeaderKey p.fst ≠ canonicalMIMEHeaderKey n) := by
  obtain ⟨hrq, resp, hmz, hst, hhh⟩ := serveHTTP_ok_inv la t r rq st hh hserve
  constructor
  · intro n hn p hp
    have hp2 : p ∈ httpRemoveHopByHopHeaders r.header := by
      rw [hrq] at hp
      simpa [proxyRewrite] using hp
    obtain ⟨hin, hfix, hconn⟩ := mem_httpRemoveHopByHopHeaders r.header p hp2
    rw [hcReq p hin]
    rcases hn with hn | hn
    · exact hfix n hn
    · exact hconn n hn
  · refine ⟨resp, by rw [hrq]; exact hmz, ?_⟩
    intro n hn p hp
    rw [hhh] at hp
    rcases mem_httpCopyHeaders _ [] p hp with h0 | h0
    · cases h0
    · obtain ⟨hin, hfix, hconn⟩ := mem_httpRemoveHopByHopHeaders resp.header p h0
      rw [hcResp (proxyRewrite la r) resp hmz p hin]
      rcases hn with hn | hn
      · exact hfix n hn
      · exact hconn n hn

/-- Witness for the amended C1 at a concrete request and transport. -/
theorem httpProxy_hop_by_hop_amended_witness :
    (serveHTTP "127.0.0.1:60000"
        (fun _ => some { statusCode := 200, header := [("Content-Type", ["text/plain"])] })
        { method := "GET", urlScheme := "", urlHost := "", host := "h",
          header := [("Connection", ["Foo"]), ("Foo", ["x"])] }
      = ProxyResult.ok
          { method := "GET", urlScheme := "http", urlHost := "h", host := "h",
            header := [] }
          200 [("Content-Type", ["text/plain"])]) ∧
    (∀ n, (n ∈ httpHopHeaders ∨ n ∈ connectionNames
          [("Connection", ["Foo"]), ("Foo", ["x"])]) →
       ∀ p ∈ ([] : Header),
         canonicalMIMEHeaderKey p.fst ≠ canonicalMIMEHeaderKey n) := by
  have hs : serveHTTP "127.0.0.1:60000"
      (fun _ => some { statusCode := 200, header := [("Content-Type", ["text/plain"])] })
      { method := "GET", urlScheme := "", urlHost := "", host := "h",
        header := [("Connection", ["Foo"]), ("Foo", ["x"])] }
      = ProxyResult.ok
          { method := "GET", urlScheme := "http", urlHost := "h", host := "h",
            header := [] }
          200 [("Content-Type", ["text/plain"])] := by decide
  refine ⟨hs, ?_⟩
  exact (httpProxy_hop_by_hop_amended "127.0.0.1:60000" _ _ _ 200 _ hs
    (by decide)
    (by
      intro r2 resp h p hp
      obtain rfl : Response.mk 200 [("Content-Type", ["text/plain"])] = resp :=
        Option.some.inj h
      rw [List.mem_singleton] at hp
      rw [hp]
      decide)).1

/-- The hop-by-hop header list of RFC 7230 section 6.1, as the
specification's claim states it. -/
def rfc7230HopHeaders : List String :=
  ["Connection", "Keep-Alive", "Proxy-Authenticate", "Proxy-Authorization",
   "TE", "Trailer", "Transfer-Encoding", "Upgrade"]

/-- C1 counterexample: a forwarded request whose `Connection` header
names `Foo` and whose response carries both `Foo` and `Upgrade`.  The
headers copied back to the client still contain `Upgrade` (an RFC 7230
hop-by-hop header) and `Foo` (named by the request's own `Connection`
header): the claim fails on the response direction. -/
theorem httpProxy_hop_by_hop_counterexample :
    (serveHTTP "127.0.0.1:60000"
        (fun _ => some { statusCode := 200, header := [("Foo", ["y"]), ("Upgrade", ["h2c"])] })
        { method := "GET", urlScheme := "", urlHost := "", host := "h",
          header := [("Connection", ["Foo"]), ("Foo", ["x"])] }
      = ProxyResult.ok
          { method := "GET", urlScheme := "http", urlHost := "h", host := "h",
            header := [] }
          200 [("Foo", ["y"]), ("Upgrade", ["h2c"])]) ∧
    "Upgrade" ∈ rfc7230HopHeaders ∧
    "Foo" ∈ connectionNames [("Connection", ["Foo"]), ("Foo", ["x"])] :=
  ⟨by decide, by decide, by decide⟩

/-- C4: the up-front sanity checks of `ServeHTTP`, in the order the
code (and the claim) lists them: `CONNECT` is rejected with 405, then a
non-empty `Upgrade` header with 503, then an absolute request URI with
503; any other request reaches `proxyForward`, which always consults
the transport and never produces an up-front rejection. -/
theorem serveHTTP_upfront (la : String) (t : Request → Option Response) (r : Request) :
    (r.method = "CONNECT" → serveHTTP la t r = ProxyResult.reject 405) ∧
    (r.method ≠ "CONNECT" → headerGet r.header "Upgrade" ≠ "" →
        serveHTTP la t r = ProxyResult.reject 503) ∧
    (r.method ≠ "CONNECT" → headerGet r.header "Upgrade" = "" → r.urlScheme ≠ "" →
        serveHTTP la t r = ProxyResult.reject 503) ∧
    (r.method ≠ "CONNECT" → headerGet r.header "Upgrade" = "" → r.urlScheme = "" →
        (serveHTTP la t r = proxyForward la t r ∧
         ∀ s, proxyForward la t r ≠ ProxyResult.reject s)) := by
  refine ⟨?_, ?_, ?_, ?_⟩
  · intro h
    unfold serveHTTP
    rw [if_pos (by simp [h])]
  · intro h1 h2
    unfold serveHTTP
    rw [if_neg (by simp [h1]), if_pos (by simp [h2])]
  · intro h1 h2 h3
    unfold serveHTTP
    rw [if_neg (by simp [h1]), if_neg (by simp [h2]), if_pos (by simp [h3])]
  · intro h1 h2 h3
    constructor
    · unfold serveHTTP
      rw [if_neg (by simp [h1]), if_neg (by simp [h2]), if_neg (by simp [h3])]
    · intro s
      unfold proxyForward
      rcases ht : t (proxyRewrite la r) with _ | resp
      · simp
      · simp

/-- Witness for C4: each branch exercised at a concrete request. -/
theorem serveHTTP_upfront_witness :
    (serveHTTP "l" (fun _ => none)
        { method := "CONNECT", urlScheme := "", urlHost := "", host := "", header := [] }
      = ProxyResult.reject 405) ∧
    (serveHTTP "l" (fun _ => none)
        { method := "GET", urlScheme := "", urlHost := "", host := "",
          header := [("Upgrade", ["h2c"])] }
      = ProxyResult.reject 503) ∧
    (serveHTTP "l" (fun _ => none)
        { method := "GET", urlScheme := "http", urlHost := "e.com", host := "", header := [] }
      = ProxyResult.reject 503) ∧
    (serveHTTP "l" (fun _ => none)
        { method := "GET", urlScheme := "", urlHost := "", host := "", header := [] }
      = proxyForward "l" (fun _ => none)
        { method := "GET", urlScheme := "", urlHost := "", host := "", header := [] }) := by
  refine ⟨?_, ?_, ?_, ?_⟩
  · exact (serveHTTP_upfront "l" (fun _ => none) _).1 rfl
  · exact (serveHTTP_upfront "l" (fun _ => none) _).2.1 (by decide) (by decide)
  · exact (serveHTTP_upfront "l" (fun _ => none) _).2.2.1 (by decide) (by decide) (by decide)
  · exact ((serveHTTP_upfront "l" (fun _ => none) _).2.2.2 (by decide) (by decide) rfl).1

/-- C5 counterexample: a client that sends `Host: example.com` has that
host kept in the forwarded request; the listener-derived address is
only used when the client sent no `Host` at all, so the forwarded Host
is not the listener-derived pseudo-host. -/
theorem proxyHost_counterexample :
    (serveHTTP "127.0.0.1:60000" (fun _ => some { statusCode := 200, header := [] })
        { method := "POST", urlScheme := "", urlHost := "", host := "example.com",
          header := [] }
      = ProxyResult.ok
          { method := "POST", urlScheme := "http", urlHost := "example.com",
            host := "example.com", header := [] }
          200 []) ∧
    "example.com" ≠ "127.0.0.1:60000" :=
  ⟨by decide, by decide⟩

/-- C5 (amended): the rewrite performed before `RoundTrip` sets the URL
scheme to `"http"`, keeps the client's `Host` when one was sent and
falls back to the listener's local address only when `Host` was empty
(the HTTP/1.0 case), and sets the URL host to the resulting `Host`. -/
theorem proxyRewrite_host_scheme (la : String) (r : Request) :
    (proxyRewrite la r).urlScheme = "http" ∧
    (proxyRewrite la r).host = (if r.host = "" then la else r.host) ∧
    (proxyRewrite la r).urlHost = (if r.host = "" then la else r.host) := by
  unfold proxyRewrite
  by_cases h : r.host = "" <;> simp [h]

/-! ## Session-id counter (HTTP proxy source, lines 20-22 and 63-65) -/

/-- Reduction to the `int32` range `[-2147483648, 2147483648)`: the
value of a Go `int32` after two's-complement overflow. -/
def int32Wrap (n : Int) : Int := (n + 2147483648) % 4294967296 - 2147483648

/-- `session := atomic.AddInt32(&httpSessionId, 1) - 1`: the counter is
an `int32`, so both the atomic increment and the subtraction wrap.
Returns the assigned session id and the new counter value.  The
counter starts at 0 (the Go zero value). -/
def httpSessionAccept (c : Int) : Int × Int :=
  (int32Wrap (int32Wrap (c + 1) - 1), int32Wrap (c + 1))

/-- The deferred `atomic.AddInt32(&httpSessionId, -1)` (int32,
wrapping) executed when the request handler returns. -/
def httpSessionRelease (c : Int) : Int := int32Wrap (c - 1)

/-- An accept or a completion of a request, as seen by the counter.
The atomic operations make each event a single state transition. -/
inductive SessionEvent where
  | accept
  | release
deriving DecidableEq, Repr

/-- Run a sequence of accept/complete events against the counter:
returns the session ids assigned at the accepts and the final counter
value. -/
def sessionRun : Int → List SessionEvent → List Int × Int
  | c, [] => ([], c)
  | c, SessionEvent.accept :: es =>
      let p := httpSessionAccept c
      let rest := sessionRun p.2 es
      (p.1 :: rest.1, rest.2)
  | c, SessionEvent.release :: es => sessionRun (httpSessionRelease c) es

/-- C8 counterexample: two sequential requests (the first completes
before the second is accepted) both get session id 0 -- the counter is
decremented when a request finishes, so ids are reused and the id
sequence is not strictly increasing. -/
theorem httpSessionId_counterexample :
    (sessionRun 0 [SessionEvent.accept, SessionEvent.release, SessionEvent.accept]).1
      = [0, 0] ∧
    ¬ List.Pairwise (fun a b => a < b)
        (sessionRun 0 [SessionEvent.accept, SessionEvent.release, SessionEvent.accept]).1 :=
  ⟨by decide, by decide⟩

theorem int32Wrap_emod (x : Int) :
    int32Wrap x % 4294967296 = x % 4294967296 := by
  unfold int32Wrap
  omega

theorem int32Wrap_id (x : Int) (h1 : -2147483648 ≤ x) (h2 : x < 2147483648) :
    int32Wrap x = x := by
  unfold int32Wrap
  omega

/-- C8 (amended): the counter is an `int32` and wraps at `2^31`.
Modulo `2^32` it tracks the number of requests in flight -- after any
event sequence it equals the start value plus the accepts minus the
completions -- and the id assigned at an accept is the counter's
current value.  Ids therefore increase strictly (`c, c+1, ...`) across
accepts with no intervening completion as long as the counter does not
wrap; once a request completes its id is reused (two sequential
requests both get id 0). -/
theorem httpSessionId_in_flight (c : Int) (es : List SessionEvent) (n : Nat)
    (hc1 : -2147483648 ≤ c) (hc2 : c + (n : Int) < 2147483648) :
    (sessionRun c es).2 % 4294967296
      = (c + (es.count SessionEvent.accept : Int)
          - (es.count SessionEvent.release : Int)) % 4294967296 ∧
    (sessionRun c (List.replicate n SessionEvent.accept)).1
      = (List.range n).map (fun k : Nat => c + (k : Int)) ∧
    List.Pairwise (fun a b => a < b)
      ((sessionRun c (List.replicate n SessionEvent.accept)).1) := by
  have hcount : ∀ (es : List SessionEvent) (c : Int),
      (sessionRun c es).2 % 4294967296
        = (c + (es.count SessionEvent.accept : Int)
            - (es.count SessionEvent.release : Int)) % 4294967296 := by
    intro es
    induction es with
    | nil => intro c; simp [sessionRun]
    | cons e es ih =>
      intro c
      cases e with
      | accept =>
        have hw := int32Wrap_emod (c + 1)
        have ih2 := ih (int32Wrap (c + 1))
        simp only [sessionRun, httpSessionAccept, List.count_cons]
        simp
        omega
      | release =>
        have hw := int32Wrap_emod (c - 1)
        have ih2 := ih (int32Wrap (c - 1))
        simp only [sessionRun, httpSessionRelease, List.count_cons]
        simp
        omega
  have hrepl : ∀ (n : Nat) (c : Int),
      -2147483648 ≤ c → c + (n : Int) < 2147483648 →
      (sessionRun c (List.replicate n SessionEvent.accept)).1
        = (List.range n).map (fun k : Nat => c + (k : Int)) := by
    intro n
    induction n with
    | zero => intro c _ _; simp [sessionRun]
    | succ n ih =>
      intro c h1 h2
      have hw1 : int32Wrap (c + 1) = c + 1 :=
        int32Wrap_id (c + 1) (by omega) (by omega)
      have hw0 : int32Wrap (c + 1 - 1) = c := by
        rw [int32Wrap_id (c + 1 - 1) (by omega) (by omega)]
        omega
      rw [List.replicate_succ]
      simp only [sessionRun, httpSessionAccept]
      rw [hw1, hw0]
      rw [ih (c + 1) (by omega) (by omega), List.range_succ_eq_map,
        List.map_cons, List.map_map]
      congr 1
      · omega
      · apply List.map_congr_left
        intro a _
        simp only [Function.comp_apply]
        push_cast
        omega
  refine ⟨hcount es c, hrepl n c hc1 hc2, ?_⟩
  rw [hrepl n c hc1 hc2]
  refine List.Pairwise.map _ ?_ (List.pairwise_lt_range n)
  intro a b hab
  omega

/-- Witness for the amended C8: the hypotheses hold at counter 0 with
three accepts (no wrap), and the theorem yields the in-flight equation
and the strictly increasing ids 0, 1, 2. -/
theorem httpSessionId_in_flight_witness :
    (-2147483648 ≤ (0 : Int)) ∧ ((0 : Int) + ((3 : Nat) : Int) < 2147483648) ∧
    (sessionRun 0 [SessionEvent.accept, SessionEvent.release]).2 % 4294967296
      = ((0 : Int)
          + ([SessionEvent.accept, SessionEvent.release].count SessionEvent.accept : Int)
          - ([SessionEvent.accept, SessionEvent.release].count SessionEvent.release : Int))
        % 4294967296 ∧
    (sessionRun 0 (List.replicate 3 SessionEvent.accept)).1
      = (List.range 3).map (fun k : Nat => (0 : Int) + (k : Int)) ∧
    List.Pairwise (fun a b => a < b)
      ((sessionRun 0 (List.replicate 3 SessionEvent.accept)).1) := by
  refine ⟨by decide, by decide, ?_, ?_, ?_⟩
  · exact (httpSessionId_in_flight 0 [SessionEvent.accept, SessionEvent.release] 3
      (by decide) (by decide)).1
  · exact (httpSessionId_in_flight 0 [SessionEvent.accept, SessionEvent.release] 3
      (by decide) (by decide)).2.1
  · exact (httpSessionId_in_flight 0 [SessionEvent.accept, SessionEvent.release] 3
      (by decide) (by decide)).2.2

/-! ## IPP attribute decoder (IPP service registration source) -/

/-- goipp value type tags (`goipp.Type`), as compared by `getAttr`. -/
inductive IppType where
  | integer
  | boolean
  | string
  | dateTime
  | resolution
  | range
  | textWithLang
  | binary
  | collection
deriving DecidableEq, Repr

/-- goipp attribute values (`goipp.Value`).  The tag component of
`goipp.Values` entries is never consulted by the embedded code and is
omitted. -/
inductive IppValue where
  | integer (i : Int)
  | boolean (b : Bool)
  | string (s : String)
  | dateTime (s : String)
  | resolution (x y u : Int)
  | range (lower upper : Int)
  | textWithLang (lang text : String)
  | binary (bytes : List Nat)
  | collection (members : List (String × IppValue))

/-- `goipp.Value.Type()`. -/
def IppValue.type : IppValue → IppType
  | .integer _ => .integer
  | .boolean _ => .boolean
  | .string _ => .string
  | .dateTime _ => .dateTime
  | .resolution _ _ _ => .resolution
  | .range _ _ => .range
  | .textWithLang _ _ => .textWithLang
  | .binary _ => .binary
  | .collection _ => .collection

/-- One entry of `msg.Printer`: a `goipp.Attribute` (name and values). -/
structure IppAttribute where
  name : String
  values : List IppValue

/-- IPP source line 155: `ippAttrs`, the Go map from attribute name to
values, modelled as an association list with at most one entry per
key. -/
abbrev ippAttrs := List (String × List IppValue)

/-- Go map assignment `attrs[name] = values`: replace the existing
entry or append a new one. -/
def ippMapSet : ippAttrs → String → List IppValue → ippAttrs
  | [], k, v => [(k, v)]
  | p :: rest, k, v =>
    if p.fst == k then (k, v) :: rest else p :: ippMapSet rest k v

/-- Go map lookup `v, ok := attrs[name]`. -/
def ippAttrs.find : ippAttrs → String → Option (List IppValue)
  | [], _ => none
  | p :: rest, name =>
    if p.fst == name then some p.snd else ippAttrs.find rest name

/-- IPP source lines 157-169, `newIppDecoder`: iterate `msg.Printer`
from the last attribute to the first, so that on duplicated attribute
names the first occurrence's values end up in the map. -/
def newIppDecoder (printer : List IppAttribute) : ippAttrs :=
  printer.reverse.foldl (fun attrs a => ippMapSet attrs a.name a.values) []

/-- IPP source lines 419-433, `ippAttrs.getAttr`: look the name up and
compare the requested type with the type of the first value.  The Go
code indexes `v[0]`, so `none` models the panic on an (ill-formed)
empty value slice, while `some []` is Go's `nil` result -- the same
result produced when the attribute is absent. -/
def ippAttrs.getAttr (attrs : ippAttrs) (t : IppType) (name : String) :
    Option (List IppValue) :=
  match ippAttrs.find attrs name with
  | none => some []
  | some [] => none
  | some (v0 :: vs) => if v0.type == t then some (v0 :: vs) else some []

/-- The Go type assertion `string(v.(goipp.String))`: panics (`none`)
on any other value kind. -/
def ippValueString : IppValue → Option String
  | .string s => some s
  | _ => none

/-- The `for i := range vals` loop of `getStrings`: cast every value,
propagating the panic of a failed cast. -/
def ippStringsOf : List IppValue → Option (List String)
  | [] => some []
  | v :: vs =>
    match ippValueString v, ippStringsOf vs with
    | some s, some ss => some (s :: ss)
    | _, _ => none

/-- IPP source lines 396-404, `getStrings`: `getAttr` of type String,
then the cast of every value. -/
def ippAttrs.getStrings (attrs : ippAttrs) (name : String) : Option (List String) :=
  match ippAttrs.getAttr attrs IppType.string name with
  | none => none
  | some vals => ippStringsOf vals

/-- IPP source lines 371-378, `strSingle`: first string of the
attribute, `""` when empty or absent. -/
def ippAttrs.strSingle (attrs : ippAttrs) (name : String) : Option String :=
  match ippAttrs.getStrings attrs name with
  | none => none
  | some [] => some ""
  | some (s :: _) => some s

/-- Modelled from the spec: the `MfgAndProduct` field of the USB device
information of this revision ("<manufacturer> <product-name>" from the
USB device descriptor), which the DNS-SD name chain uses as its final
fallback and otherwise treats as an opaque string; the rest of this
revision's `UsbDeviceInfo` is not needed here. -/
structure UsbDeviceInfo where
  MfgAndProduct : String

/-- IPP source lines 217-227: the DNS-SD name fallback chain of
`ippAttrs.decode` -- `printer-dns-sd-name`, then (when empty)
`printer-info`, then `printer-make-and-model`, then
`usbinfo.MfgAndProduct`. -/
def ippAttrs.decodeDNSSdName (attrs : ippAttrs) (usbinfo : UsbDeviceInfo) :
    Option String :=
  match ippAttrs.strSingle attrs "printer-dns-sd-name" with
  | none => none
  | some n1 =>
    if n1 != "" then some n1 else
    match ippAttrs.strSingle attrs "printer-info" with
    | none => none
    | some n2 =>
      if n2 != "" then some n2 else
      match ippAttrs.strSingle attrs "printer-make-and-model" with
      | none => none
      | some n3 =>
        if n3 != "" then some n3 else some usbinfo.MfgAndProduct

/-- The specification's reading of the fallback chain: the first
non-empty candidate. -/
def firstNonEmpty : List String → String
  | [] => ""
  | s :: rest => if s != "" then s else firstNonEmpty rest

/-- Well-formedness of a decoded attribute map: every attribute carries
at least one value and all its values share the type of the first one
(as `goipp` produces for decoded attribute groups). -/
def attrsWF (attrs : ippAttrs) : Bool :=
  attrs.all fun p =>
    match p.snd with
    | [] => false
    | v0 :: vs => vs.all fun v => v.type == v0.type

/-! ### Map lemmas -/

theorem find?_attr_cons_pos (a : IppAttribute) (rest : List IppAttribute) (name : String)
    (h : (a.name == name) = true) :
    List.find? (fun x => x.name == name) (a :: rest) = some a := by
  simp [List.find?, h]

theorem find?_attr_cons_neg (a : IppAttribute) (rest : List IppAttribute) (name : String)
    (h : (a.name == name) = false) :
    List.find? (fun x => x.name == name) (a :: rest)
      = List.find? (fun x => x.name == name) rest := by
  simp [List.find?, h]

theorem ippMapSet_find_self (k : String) (v : List IppValue) :
    ∀ m : ippAttrs, ippAttrs.find (ippMapSet m k v) k = some v := by
  intro m
  induction m with
  | nil => simp [ippMapSet, ippAttrs.find]
  | cons p rest ih =>
    by_cases he : (p.fst == k) = true
    · simp [ippMapSet, he, ippAttrs.find]
    · have he3 : (p.fst == k) = false := by simpa using he
      simp [ippMapSet, he3, ippAttrs.find, ih]

theorem ippMapSet_find_other (k k2 : String) (v : List IppValue) (hne : k2 ≠ k) :
    ∀ m : ippAttrs, ippAttrs.find (ippMapSet m k v) k2 = ippAttrs.find m k2 := by
  have hkk : (k == k2) = false := by simpa using fun e => hne e.symm
  intro m
  induction m with
  | nil => simp [ippMapSet, ippAttrs.find, hkk]
  | cons p rest ih =>
    by_cases he : (p.fst == k) = true
    · have hp2 : (p.fst == k2) = false := by
        have hpk : p.fst = k := beq_iff_eq.mp he
        rw [hpk]; exact hkk
      simp [ippMapSet, he, ippAttrs.find, hkk, hp2]
    · have he3 : (p.fst == k) = false := by simpa using he
      by_cases hp : (p.fst == k2) = true
      · simp [ippMapSet, he3, ippAttrs.find, hp]
      · have hp3 : (p.fst == k2) = false := by simpa using hp
        simp [ippMapSet, he3, ippAttrs.find, hp3, ih]

theorem newIppDecoder_cons (a : IppAttribute) (rest : List IppAttribute) :
    newIppDecoder (a :: rest) = ippMapSet (newIppDecoder rest) a.name a.values := by
  unfold newIppDecoder
  rw [List.reverse_cons, List.foldl_append]
  rfl

/-- C6: on a duplicated attribute name the map built by `newIppDecoder`
answers with the values of the *first* occurrence in the
printer-attributes group; and when a named attribute's first value has
a type other than the requested one, `getAttr` yields exactly the
result it yields on an empty attribute map (i.e. the attribute is
treated as absent). -/
theorem newIppDecoder_first_wins (printer : List IppAttribute) (name : String)
    (t : IppType) :
    ippAttrs.find (newIppDecoder printer) name
      = (printer.find? (fun a => a.name == name)).map (fun a => a.values) ∧
    (∀ v0 vs, ippAttrs.find (newIppDecoder printer) name = some (v0 :: vs) →
      v0.type ≠ t →
      ippAttrs.getAttr (newIppDecoder printer) t name
        = ippAttrs.getAttr [] t name) := by
  constructor
  · induction printer with
    | nil => rfl
    | cons a rest ih =>
      rw [newIppDecoder_cons]
      by_cases he : (a.name == name) = true
      · have he2 : a.name = name := beq_iff_eq.mp he
        rw [he2, ippMapSet_find_self name a.values (newIppDecoder rest),
          find?_attr_cons_pos a rest name he]
        rfl
      · have he3 : (a.name == name) = false := by simpa using he
        rw [ippMapSet_find_other a.name name a.values
              (fun e => by rw [e] at he3; simp at he3) (newIppDecoder rest),
            find?_attr_cons_neg a rest name he3]
        exact ih
  · intro v0 vs hfind hty
    unfold ippAttrs.getAttr
    rw [hfind]
    have hb : (v0.type == t) = false := by simpa using hty
    simp [hb, ippAttrs.find]

/-- Witness for C6: a duplicated attribute, looked up both as the map
entry (first occurrence wins) and through `getAttr` at a mismatched
type (treated exactly like an absent attribute). -/
theorem newIppDecoder_first_wins_witness :
    ippAttrs.find (newIppDecoder
        [⟨"printer-info", [IppValue.string "first"]⟩,
         ⟨"printer-info", [IppValue.string "second"]⟩]) "printer-info"
      = some [IppValue.string "first"] ∧
    ippAttrs.getAttr (newIppDecoder
        [⟨"printer-info", [IppValue.string "first"]⟩,
         ⟨"printer-info", [IppValue.string "second"]⟩]) IppType.integer "printer-info"
      = ippAttrs.getAttr [] IppType.integer "printer-info" := by
  have h := newIppDecoder_first_wins
      [⟨"printer-info", [IppValue.string "first"]⟩,
       ⟨"printer-info", [IppValue.string "second"]⟩] "printer-info" IppType.integer
  refine ⟨?_, ?_⟩
  · rw [h.1]; rfl
  · exact h.2 (IppValue.string "first") [] (by rw [h.1]; rfl) (by decide)

/-! ### The DNS-SD name chain -/

theorem IppValue.type_string_elim (v : IppValue) (h : v.type = IppType.string) :
    ∃ s, v = IppValue.string s := by
  cases v
  case string s => exact ⟨s, rfl⟩
  all_goals simp [IppValue.type] at h

theorem ippStringsOf_all (l : List IppValue)
    (h : ∀ v ∈ l, v.type = IppType.string) :
    ∃ ss, ippStringsOf l = some ss := by
  induction l with
  | nil => exact ⟨[], rfl⟩
  | cons v l ih =>
    obtain ⟨s, rfl⟩ := IppValue.type_string_elim v (h v (by simp))
    obtain ⟨ss, hss⟩ := ih (fun v2 hv2 => h v2 (by simp [hv2]))
    exact ⟨s :: ss, by simp [ippStringsOf, ippValueString, hss]⟩

/-- On a well-formed attribute map, `strSingle` never panics: it
returns some string for every name. -/
theorem strSingle_wf (attrs : ippAttrs) (hwf : attrsWF attrs = true) (name : String) :
    ∃ s, ippAttrs.strSingle attrs name = some s := by
  cases hf : ippAttrs.find attrs name with
  | none =>
    exact ⟨"", by
      simp [ippAttrs.strSingle, ippAttrs.getStrings, ippAttrs.getAttr, hf, ippStringsOf]⟩
  | some vs =>
    have hmem : ∃ p, p ∈ attrs ∧ p.fst = name ∧ p.snd = vs := by
      clear hwf
      induction attrs with
      | nil => cases hf
      | cons p rest ih =>
        unfold ippAttrs.find at hf
        by_cases he : (p.fst == name) = true
        · rw [if_pos he] at hf
          exact ⟨p, by simp, beq_iff_eq.mp he, Option.some.inj hf⟩
        · rw [if_neg he] at hf
          obtain ⟨q, hq1, hq2, hq3⟩ := ih hf
          exact ⟨q, by simp [hq1], hq2, hq3⟩
    obtain ⟨p, hpmem, hpname, hpvals⟩ := hmem
    have hwp := List.all_eq_true.mp hwf p hpmem
    rw [hpvals] at hwp
    cases vs with
    | nil => simp at hwp
    | cons v0 rest =>
      have hwp2 : rest.all (fun v => v.type == v0.type) = true := hwp
      by_cases hty : v0.type = IppType.string
      · obtain ⟨s, rfl⟩ := IppValue.type_string_elim v0 hty
        have hall : ∀ v ∈ rest, v.type = IppType.string := by
          intro v hv
          have hb := List.all_eq_true.mp hwp2 v hv
          exact (beq_iff_eq.mp hb).trans hty
        obtain ⟨ss, hss⟩ := ippStringsOf_all rest hall
        refine ⟨s, ?_⟩
        simp [ippAttrs.strSingle, ippAttrs.getStrings, ippAttrs.getAttr, hf,
          IppValue.type, ippStringsOf, ippValueString, hss]
      · have hb : (v0.type == IppType.string) = false := by simpa using hty
        refine ⟨"", ?_⟩
        simp [ippAttrs.strSingle, ippAttrs.getStrings, ippAttrs.getAttr, hf, hb,
          ippStringsOf]

/-- C7: on a well-formed decoded attribute set, the advertised DNS-SD
name equals the first non-empty candidate of the chain
`printer-dns-sd-name`, `printer-info`, `printer-make-and-model`,
manufacturer-and-product string from the USB device descriptor --
where an attribute's candidate value is its first string value (`""`
when the attribute is absent, of another type, or empty). -/
theorem ippDecodeDNSSdName_chain (attrs : ippAttrs) (usbinfo : UsbDeviceInfo)
    (hwf : attrsWF attrs = true) :
    ∃ s1 s2 s3,
      ippAttrs.strSingle attrs "printer-dns-sd-name" = some s1 ∧
      ippAttrs.strSingle attrs "printer-info" = some s2 ∧
      ippAttrs.strSingle attrs "printer-make-and-model" = some s3 ∧
      ippAttrs.decodeDNSSdName attrs usbinfo
        = some (firstNonEmpty [s1, s2, s3, usbinfo.MfgAndProduct]) := by
  obtain ⟨s1, h1⟩ := strSingle_wf attrs hwf "printer-dns-sd-name"
  obtain ⟨s2, h2⟩ := strSingle_wf attrs hwf "printer-info"
  obtain ⟨s3, h3⟩ := strSingle_wf attrs hwf "printer-make-and-model"
  refine ⟨s1, s2, s3, h1, h2, h3, ?_⟩
  by_cases e1 : s1 = ""
  · by_cases e2 : s2 = ""
    · by_cases e3 : s3 = ""
      · simp only [ippAttrs.decodeDNSSdName, h1, h2, h3, e1, e2, e3, firstNonEmpty]
        by_cases e4 : usbinfo.MfgAndProduct = "" <;> simp [e4]
      · simp [ippAttrs.decodeDNSSdName, h1, h2, h3, e1, e2, e3, firstNonEmpty]
    · simp [ippAttrs.decodeDNSSdName, h1, h2, h3, e1, e2, firstNonEmpty]
  · simp [ippAttrs.decodeDNSSdName, h1, e1, firstNonEmpty]

/-- Witness for C7: `printer-dns-sd-name` present but empty,
`printer-info` non-empty -- the chain falls through to
`printer-info`. -/
theorem ippDecodeDNSSdName_chain_witness :
    attrsWF [("printer-dns-sd-name", [IppValue.string ""]),
             ("printer-info", [IppValue.string "Example Printer"])] = true ∧
    ∃ s1 s2 s3,
      ippAttrs.strSingle [("printer-dns-sd-name", [IppValue.string ""]),
             ("printer-info", [IppValue.string "Example Printer"])]
           "printer-dns-sd-name" = some s1 ∧
      ippAttrs.strSingle [("printer-dns-sd-name", [IppValue.string ""]),
             ("printer-info", [IppValue.string "Example Printer"])]
           "printer-info" = some s2 ∧
      ippAttrs.strSingle [("printer-dns-sd-name", [IppValue.string ""]),
             ("printer-info", [IppValue.string "Example Printer"])]
           "printer-make-and-model" = some s3 ∧
      ippAttrs.decodeDNSSdName [("printer-dns-sd-name", [IppValue.string ""]),
             ("printer-info", [IppValue.string "Example Printer"])]
          (UsbDeviceInfo.mk "ACME X-1000")
        = some (firstNonEmpty [s1, s2, s3,
            (UsbDeviceInfo.mk "ACME X-1000").MfgAndProduct]) :=
  ⟨by decide,
    ippDecodeDNSSdName_chain
      [("printer-dns-sd-name", [IppValue.string ""]),
       ("printer-info", [IppValue.string "Example Printer"])]
      (UsbDeviceInfo.mk "ACME X-1000") (by decide)⟩

/-! ## eSCL ScannerCapabilities decoder (escl.go) -/

/-- escl.go lines 120-126, `esclCapsDecoder`.  The Go sets
`map[string]struct{}` for `pdl`/`cs` become duplicate-free lists. -/
structure esclCapsDecoder where
  uuid : String := ""
  version : String := ""
  platen : Bool := false
  adf : Bool := false
  duplex : Bool := false
  pdl : List String := []
  cs : List String := []
deriving DecidableEq, Repr

/-- Insertion into a Go `map[string]struct{}` used as a set. -/
def setInsert (l : List String) (k : String) : List String :=
  if l.contains k then l else l ++ [k]

/-- escl.go lines 174-186: the path constants. -/
def esclPlaten : String := "/scan:ScannerCapabilities/scan:Platen"

def esclAdf : String := "/scan:ScannerCapabilities/scan:Adf"

def esclPlatenInputCaps : String := esclPlaten ++ "/scan:PlatenInputCaps"

def esclAdfSimplexCaps : String := esclAdf ++ "/scan:AdfSimplexInputCaps"

def esclAdfDuplexCaps : String := esclAdf ++ "/scan:AdfDuplexCaps"

def esclSettingProfile : String := "/scan:SettingProfiles/scan:SettingProfile"

def esclColorMode : String := esclSettingProfile ++ "/scan:ColorModes/scan:ColorMode"

def esclDocumentFormat : String :=
  esclSettingProfile ++ "/scan:DocumentFormats/pwg:DocumentFormat"

/-- Model of Go `strings.ToLower` (character-wise; the compared
prefixes are ASCII). -/
def goToLower (s : String) : String := (s.toList.map Char.toLower).asString

/-- Model of Go `strings.HasPrefix`. -/
def goStartsWith (s pre : String) : Bool := pre.toList.isPrefixOf s.toList

/-- escl.go lines 189-196, `esclCapsDecoder.element`. -/
def esclCapsDecoder.element (d : esclCapsDecoder) (path : String) : esclCapsDecoder :=
  if path == esclPlaten then { d with platen := true }
  else if path == esclAdf then { d with adf := true }
  else d

/-- escl.go lines 199-226, `esclCapsDecoder.data`. -/
def esclCapsDecoder.data (d : esclCapsDecoder) (path dat : String) : esclCapsDecoder :=
  if path == "/scan:ScannerCapabilities/scan:UUID" then { d with uuid := dat }
  else if path == "/scan:ScannerCapabilities/pwg:Version" then { d with version := dat }
  else if path == esclPlatenInputCaps ++ esclColorMode
      || path == esclAdfSimplexCaps ++ esclColorMode
      || path == esclAdfDuplexCaps ++ esclColorMode then
    let low := goToLower dat
    if goStartsWith low "rgb" then { d with cs := setInsert d.cs "color" }
    else if goStartsWith low "grayscale" then { d with cs := setInsert d.cs "grayscale" }
    else if goStartsWith low "blackandwhite" then { d with cs := setInsert d.cs "binary" }
    else d
  else if path == esclPlatenInputCaps ++ esclDocumentFormat
      || path == esclAdfSimplexCaps ++ esclDocumentFormat
      || path == esclAdfDuplexCaps ++ esclDocumentFormat then
    { d with pdl := setInsert d.pdl dat }
  else d

/-- An XML name as `xml.Decoder.RawToken` reports it: `Space` is the
unresolved namespace prefix. -/
structure XmlName where
  space : String
  localName : String
deriving DecidableEq, Repr

/-- The raw tokens the decode loop consumes.  `RawToken` does not check
that start and end elements match, so an end element (whose name the
loop ignores) can arrive at any time; a tokenisation error simply
truncates the stream, since the loop `break`s on it.  Tokens other
than the three handled kinds are skipped by the loop and omitted. -/
inductive XmlToken where
  | startTag (name : XmlName)
  | endTag
  | charData (s : String)
deriving DecidableEq, Repr

/-- One iteration of the decode loop of escl.go lines 143-169, acting
on the decoder state, the current path and the length stack.  `none`
models the Go panic at `lenStack[last]` when an end element arrives
while `lenStack` is empty (`last = -1`).  `path.Truncate` works on the
stored lengths, which the model tracks in characters consistently. -/
def esclStep (d : esclCapsDecoder) (path : String) (stack : List Nat) :
    XmlToken → Option (esclCapsDecoder × String × List Nat)
  | XmlToken.startTag n =>
    let stack2 := stack ++ [path.length]
    let path2 := path ++ "/" ++ n.space ++ ":" ++ n.localName
    some (esclCapsDecoder.element d path2, path2, stack2)
  | XmlToken.endTag =>
    match stack.getLast? with
    | none => none
    | some k => some (d, (path.toList.take k).asString, stack.dropLast)
  | XmlToken.charData s =>
    let dat := goTrimSpace s
    if dat.length > 0 then some (esclCapsDecoder.data d path dat, path, stack)
    else some (d, path, stack)

/-- The decode loop over a token stream. -/
def esclDecodeLoop : esclCapsDecoder → String → List Nat → List XmlToken →
    Option esclCapsDecoder
  | d, _, _, [] => some d
  | d, path, stack, tok :: toks =>
    match esclStep d path stack tok with
    | none => none
    | some (d2, p2, s2) => esclDecodeLoop d2 p2 s2 toks

/-- escl.go lines 137-172, `esclCapsDecoder.decode`, on the raw-token
stream of its input (a tokenisation error truncates the stream and the
loop `break`s, after which Go returns `nil`).  `some d` is normal
termination -- the Go function then returns the nil error with the
fields collected so far in `d`; `none` is the `lenStack[-1]` panic. -/
def esclCapsDecoder.decode (toks : List XmlToken) : Option esclCapsDecoder :=
  esclDecodeLoop {} "" [] toks

/-- escl.go lines 63-68: the `EsclService` validity check applied to
the decoder state after `decode` returned (when it fires, `EsclService`
sets `err = errors.New("invalid response")`).  Note the last clause is
`!(platen && adf)`: it demands *both* elements. -/
def esclServiceInvalid (d : esclCapsDecoder) : Bool :=
  d.uuid == "" || d.version == "" || d.cs.length == 0 || d.pdl.length == 0 ||
    !(d.platen && d.adf)

/-- The specification's validity notion for the C3 claim: UUID present,
version present, at least one colour mode, at least one document
format, and at least one of Platen/Adf. -/
def esclValidSpec (d : esclCapsDecoder) : Bool :=
  d.uuid != "" && d.version != "" && d.cs.length > 0 && d.pdl.length > 0 &&
    (d.platen || d.adf)

/-- A well-formed platen-only ScannerCapabilities document (UUID,
version, one colour mode, one document format, a `Platen` element, no
`Adf`), as its `RawToken` stream. -/
def esclPlatenOnlyDoc : List XmlToken :=
  [XmlToken.startTag ⟨"scan", "ScannerCapabilities"⟩,
   XmlToken.startTag ⟨"scan", "UUID"⟩,
   XmlToken.charData "ab33bb00-1111-2222-3333-444455556666",
   XmlToken.endTag,
   XmlToken.startTag ⟨"pwg", "Version"⟩,
   XmlToken.charData "2.63",
   XmlToken.endTag,
   XmlToken.startTag ⟨"scan", "Platen"⟩,
   XmlToken.startTag ⟨"scan", "PlatenInputCaps"⟩,
   XmlToken.startTag ⟨"scan", "SettingProfiles"⟩,
   XmlToken.startTag ⟨"scan", "SettingProfile"⟩,
   XmlToken.startTag ⟨"scan", "ColorModes"⟩,
   XmlToken.startTag ⟨"scan", "ColorMode"⟩,
   XmlToken.charData "RGB24",
   XmlToken.endTag,
   XmlToken.endTag,
   XmlToken.startTag ⟨"scan", "DocumentFormats"⟩,
   XmlToken.startTag ⟨"pwg", "DocumentFormat"⟩,
   XmlToken.charData "application/pdf",
   XmlToken.endTag,
   XmlToken.endTag,
   XmlToken.endTag,
   XmlToken.endTag,
   XmlToken.endTag,
   XmlToken.endTag,
   XmlToken.endTag]

/-- The decoder state left by `esclPlatenOnlyDoc`. -/
def esclPlatenOnlyState : esclCapsDecoder :=
  { uuid := "ab33bb00-1111-2222-3333-444455556666", version := "2.63",
    platen := true, adf := false, duplex := false,
    pdl := ["application/pdf"], cs := ["color"] }

set_option maxRecDepth 100000 in
/-- C3 (code bug): a platen-only ScannerCapabilities response that is
valid per the specification (UUID, version, a colour mode, a format,
Platen present) is declared "invalid response" by the `EsclService`
check, because the check requires `platen && adf` -- both elements --
while the TXT-record construction of the very same function handles
the platen-only and adf-only cases (`is=platen` / `is=adf`). -/
theorem esclService_platen_only_rejected :
    esclCapsDecoder.decode esclPlatenOnlyDoc = some esclPlatenOnlyState ∧
    esclValidSpec esclPlatenOnlyState = true ∧
    esclServiceInvalid esclPlatenOnlyState = true := by
  refine ⟨by decide, by decide, by decide⟩

/-- C10 counterexample: an end element arriving with an empty element
stack (reachable, since `RawToken` performs no element matching --
e.g. the input `</a>`) makes the loop index `lenStack[-1]`: a runtime
panic, not a nil return. -/
theorem esclDecode_end_underflow :
    esclCapsDecoder.decode [XmlToken.endTag] = none := by decide

/-- Decidable guard: the end elements of a token stream never outnumber
the preceding start elements (the condition under which the length
stack never underflows). -/
def stackSafe : Nat → List XmlToken → Bool
  | _, [] => true
  | d, XmlToken.startTag _ :: ts => stackSafe (d+1) ts
  | 0, XmlToken.endTag :: _ => false
  | d+1, XmlToken.endTag :: ts => stackSafe d ts
  | d, XmlToken.charData _ :: ts => stackSafe d ts

theorem esclDecodeLoop_safe :
    ∀ (toks : List XmlToken) (d : esclCapsDecoder) (path : String) (stack : List Nat),
      stackSafe stack.length toks = true →
      ∃ d2, esclDecodeLoop d path stack toks = some d2 := by
  intro toks
  induction toks with
  | nil => intro d path stack _; exact ⟨d, rfl⟩
  | cons tok toks ih =>
    intro d path stack h
    cases tok with
    | startTag n =>
      have h2 : stackSafe ((stack ++ [path.length]).length) toks = true := by
        simp only [List.length_append, List.length_cons, List.length_nil]
        simpa [stackSafe] using h
      simp only [esclDecodeLoop, esclStep]
      exact ih _ _ _ h2
    | endTag =>
      cases stack with
      | nil => simp [stackSafe] at h
      | cons a s =>
        have hs : (a :: s).getLast? = some ((a :: s).getLast (by simp)) :=
          List.getLast?_eq_getLast _ (by simp)
        have h2 : stackSafe ((a :: s).dropLast).length toks = true := by
          have hd : ((a :: s).dropLast).length = s.length := by
            simp [List.length_dropLast]
          rw [hd]
          simpa [stackSafe] using h
        simp only [esclDecodeLoop, esclStep, hs]
        exact ih _ _ _ h2
    | charData s =>
      have h2 : stackSafe stack.length toks = true := by simpa [stackSafe] using h
      by_cases hd : (goTrimSpace s).length > 0
      · simp only [esclDecodeLoop, esclStep, if_pos hd]
        exact ih _ _ _ h2
      · simp only [esclDecodeLoop, esclStep, if_neg hd]
        exact ih _ _ _ h2

/-- C10 (amended): `decode` never produces an eSCL error -- for every
token stream in which end elements never outnumber the preceding start
elements, the loop terminates normally and the Go function returns nil
(whatever fields were extracted from the tokens seen -- a tokenisation
error merely truncates the stream); but an end element arriving with an
empty stack panics instead of returning. -/
theorem esclDecode_no_error (toks : List XmlToken) (h : stackSafe 0 toks = true) :
    ∃ d, esclCapsDecoder.decode toks = some d :=
  esclDecodeLoop_safe toks {} "" [] h

/-- Witness for the amended C10 at a concrete balanced stream. -/
theorem esclDecode_no_error_witness :
    stackSafe 0 [XmlToken.startTag ⟨"scan", "ScannerCapabilities"⟩, XmlToken.endTag]
      = true ∧
    ∃ d, esclCapsDecoder.decode
        [XmlToken.startTag ⟨"scan", "ScannerCapabilities"⟩, XmlToken.endTag] = some d :=
  ⟨by decide, esclDecode_no_error _ (by decide)⟩
